import Mathlib

/-!
Verification of `simlab/random_walk.py` (random-walk Monte Carlo primitives).

The Python module is embedded shallowly:

* Python `int` values become `Int`; the floating-point bias `p` and the
  uniform draws produced by `np.random.rand()` become rationals `ℚ`
  (only order comparisons against `p` are performed on draws, so the
  ordered-field structure is all that matters; `p = 0.0` and `p = 1.0`
  are exact in both representations).
* The process-wide pseudorandom generator is modelled as an explicit
  stream `u : ℕ → ℚ` of draws (for `hitting_time`, one stream per trial,
  `u : ℕ → ℕ → ℚ`); a uniform draw from `[0,1)` satisfies
  `0 ≤ u i ∧ u i < 1`, which is taken as a hypothesis where needed.
* `np.random.rand(n)` raises `ValueError: negative dimensions are not
  allowed` when `n < 0`; the fallible `random_walk_1d` therefore returns
  `Except String (List Int)`.
* `np.cumsum`, `np.mean` and boolean-mask counting (`np.mean(hits == left)`)
  are spelled out as list recursions over `Int`/`ℚ`.
-/

/-- Outcome of `random_walk_absorbing`: the Python triple
`(path, hit_time, hit_location)` (the path is returned as `np.array(path)`,
which preserves the list of positions). -/
structure HitOutcome where
  path : List Int
  hit_time : Int
  hit_location : Int
  deriving DecidableEq, Repr

/-- The 1D step source: `1 if np.random.rand() < p else -1`, applied to an
explicit draw. -/
def step1d (p draw : ℚ) : Int := if draw < p then 1 else -1

/-- `np.cumsum` with an explicit running accumulator. -/
def cumsumFrom (acc : Int) : List Int → List Int
  | [] => []
  | x :: xs => (acc + x) :: cumsumFrom (acc + x) xs

/-- `np.cumsum` on a list of integers. -/
def cumsum (xs : List Int) : List Int := cumsumFrom 0 xs

/-- The message of the `ValueError` numpy raises for a negative array size. -/
def negDimMsg : String := "negative dimensions are not allowed"

/-- The list of `n` steps drawn by `np.where(np.random.rand(n) < p, 1, -1)`
from the draw stream `u`. -/
def stepsOf (n : ℕ) (p : ℚ) (u : ℕ → ℚ) : List Int :=
  (List.range n).map (fun i => step1d p (u i))

/-- `random_walk_1d(n_steps, p)`: steps are `np.where(np.random.rand(n_steps) < p, 1, -1)`
and the result is `np.cumsum(steps)`.  `np.random.rand(n_steps)` raises
`ValueError` for `n_steps < 0`, modelled by `Except.error negDimMsg`. -/
def random_walk_1d (n_steps : Int) (p : ℚ) (u : ℕ → ℚ) : Except String (List Int) :=
  if n_steps < 0 then Except.error negDimMsg
  else Except.ok (cumsum (stepsOf n_steps.toNat p u))

/-- `np.mean(walks**2, axis=0)` at column `t`: the arithmetic mean over the
rows of the squared entry in column `t`. -/
def colMeanSq (walks : List (List Int)) (t : ℕ) : ℚ :=
  ((walks.map (fun w => ((w.getD t 0 : Int) : ℚ) ^ 2)).sum) / (walks.length : ℚ)

/-- `mean_squared_displacement(walks)` = `np.mean(walks**2, axis=0)` for a
rectangular `(n_trials, n_steps)` batch: one mean per column.  The number of
columns is read off the first row, as numpy's shape is. -/
def mean_squared_displacement (walks : List (List Int)) : List ℚ :=
  (List.range (walks.headD []).length).map (fun t => colMeanSq walks t)

/-- The loop of `random_walk_absorbing`.  `i` is the number of completed
ticks (the loop variable is `t = i + 1`), `fuel` the remaining iterations of
`range(1, max_steps + 1)`, `pos` the current position and `path` the list
built so far.  The second component is `some t` when the walk returned from
inside the loop (absorption at tick `t`) and `none` when the loop ran out. -/
def absorbGo (left right : Int) (p : ℚ) (u : ℕ → ℚ) :
    ℕ → ℕ → Int → List Int → List Int × Option ℕ × Int
  | _, 0, pos, path => (path, none, pos)
  | i, fuel + 1, pos, path =>
    let pos1 := pos + step1d p (u i)
    if pos1 ≤ left ∨ right ≤ pos1 then (path ++ [pos1], some (i + 1), pos1)
    else absorbGo left right p u (i + 1) fuel pos1 (path ++ [pos1])

/-- `random_walk_absorbing(left, right, start, p, max_steps)`: starts from
`pos = start`, `path = [start]`, runs the loop for `range(1, max_steps + 1)`
(`max_steps.toNat` iterations), and on budget exhaustion returns
`(path, max_steps, pos)`. -/
def random_walk_absorbing (left right start : Int) (p : ℚ) (max_steps : Int)
    (u : ℕ → ℚ) : HitOutcome :=
  match absorbGo left right p u 0 max_steps.toNat start [start] with
  | (path, some t, pos) => ⟨path, (t : Int), pos⟩
  | (path, none, pos) => ⟨path, max_steps, pos⟩

/-- `hitting_time(left, right, n_trials, start)`: runs `n_trials` absorbing
walks with the default bias `p = 0.5` and default budget `max_steps = 10000`,
collects the hit times and hit locations, and returns
`(times, (np.mean(hits == left), np.mean(hits == right)))`; the boolean-mask
mean is the matching count divided by the length of `hits`. -/
def hitting_time (left right n_trials start : Int) (u : ℕ → ℕ → ℚ) :
    List Int × (ℚ × ℚ) :=
  let trials := (List.range n_trials.toNat).map
    (fun i => random_walk_absorbing left right start (1 / 2) 10000 (u i))
  let times := trials.map HitOutcome.hit_time
  let hits := trials.map HitOutcome.hit_location
  let prob_left : ℚ := ((hits.filter (fun x => decide (x = left))).length : ℚ) / (hits.length : ℚ)
  let prob_right : ℚ := ((hits.filter (fun x => decide (x = right))).length : ℚ) / (hits.length : ℚ)
  (times, (prob_left, prob_right))

/-- The all-zero draw stream (every draw is the rational `0`). -/
def zeroDraws : ℕ → ℚ := fun _ => 0

/-- One all-zero draw stream per trial. -/
def zeroDraws2 : ℕ → ℕ → ℚ := fun _ _ => 0

/-- Every 1D step is `+1` or `-1`. -/
theorem step1d_eq (p draw : ℚ) : step1d p draw = 1 ∨ step1d p draw = -1 := by
  unfold step1d
  by_cases h : draw < p
  · exact Or.inl (if_pos h)
  · exact Or.inr (if_neg h)

/-- Unfolding one iteration of the absorbing-walk loop. -/
theorem absorbGo_succ (left right : Int) (p : ℚ) (u : ℕ → ℚ) (i fuel : ℕ)
    (pos : Int) (path : List Int) :
    absorbGo left right p u i (fuel + 1) pos path =
      if pos + step1d p (u i) ≤ left ∨ right ≤ pos + step1d p (u i) then
        (path ++ [pos + step1d p (u i)], some (i + 1), pos + step1d p (u i))
      else
        absorbGo left right p u (i + 1) fuel (pos + step1d p (u i))
          (path ++ [pos + step1d p (u i)]) := rfl

/-- The loop only ever appends to the path it was given. -/
theorem absorbGo_extends (left right : Int) (p : ℚ) (u : ℕ → ℚ) :
    ∀ (fuel i : ℕ) (pos : Int) (path : List Int),
      ∃ ext, (absorbGo left right p u i fuel pos path).1 = path ++ ext := by
  intro fuel
  induction fuel with
  | zero => exact fun i pos path => ⟨[], by simp [absorbGo]⟩
  | succ f ih =>
    intro i pos path
    rw [absorbGo_succ]
    by_cases h : pos + step1d p (u i) ≤ left ∨ right ≤ pos + step1d p (u i)
    · exact ⟨[pos + step1d p (u i)], by rw [if_pos h]⟩
    · rw [if_neg h]
      obtain ⟨ext, he⟩ := ih (i + 1) (pos + step1d p (u i)) (path ++ [pos + step1d p (u i)])
      exact ⟨(pos + step1d p (u i)) :: ext, by rw [he]; simp⟩

/-- The returned position is the last element of the returned path. -/
theorem absorbGo_getLast (left right : Int) (p : ℚ) (u : ℕ → ℚ) :
    ∀ (fuel i : ℕ) (pos : Int) (path : List Int), path.getLast? = some pos →
      (absorbGo left right p u i fuel pos path).1.getLast? =
        some (absorbGo left right p u i fuel pos path).2.2 := by
  intro fuel
  induction fuel with
  | zero => intro i pos path h; simpa [absorbGo] using h
  | succ f ih =>
    intro i pos path h
    rw [absorbGo_succ]
    by_cases hb : pos + step1d p (u i) ≤ left ∨ right ≤ pos + step1d p (u i)
    · rw [if_pos hb]; simp
    · rw [if_neg hb]
      exact ih (i + 1) (pos + step1d p (u i)) (path ++ [pos + step1d p (u i)]) (by simp)

/-- On budget exhaustion the loop has appended exactly `fuel` positions. -/
theorem absorbGo_none_length (left right : Int) (p : ℚ) (u : ℕ → ℚ) :
    ∀ (fuel i : ℕ) (pos : Int) (path : List Int),
      (absorbGo left right p u i fuel pos path).2.1 = none →
      (absorbGo left right p u i fuel pos path).1.length = path.length + fuel := by
  intro fuel
  induction fuel with
  | zero => intro i pos path _; simp [absorbGo]
  | succ f ih =>
    intro i pos path h
    rw [absorbGo_succ] at h ⊢
    by_cases hb : pos + step1d p (u i) ≤ left ∨ right ≤ pos + step1d p (u i)
    · rw [if_pos hb] at h; exact absurd h (by simp)
    · rw [if_neg hb] at h ⊢
      have := ih (i + 1) (pos + step1d p (u i)) (path ++ [pos + step1d p (u i)]) h
      rw [this]; simp; omega

/-- On absorption at tick `t`, the tick lies in `(i, i + fuel]` and the loop
has appended exactly `t - i` positions. -/
theorem absorbGo_some_spec (left right : Int) (p : ℚ) (u : ℕ → ℚ) :
    ∀ (fuel i : ℕ) (pos : Int) (path : List Int) (t : ℕ),
      (absorbGo left right p u i fuel pos path).2.1 = some t →
      i < t ∧ t ≤ i + fuel ∧
        (absorbGo left right p u i fuel pos path).1.length + i = path.length + t := by
  intro fuel
  induction fuel with
  | zero => intro i pos path t h; exact absurd h (by simp [absorbGo])
  | succ f ih =>
    intro i pos path t h
    rw [absorbGo_succ] at h ⊢
    by_cases hb : pos + step1d p (u i) ≤ left ∨ right ≤ pos + step1d p (u i)
    · rw [if_pos hb] at h ⊢
      simp at h
      subst h
      refine ⟨by omega, by omega, ?_⟩
      simp
      omega
    · rw [if_neg hb] at h ⊢
      have := ih (i + 1) (pos + step1d p (u i)) (path ++ [pos + step1d p (u i)]) t h
      simp at this
      exact ⟨by omega, by omega, by omega⟩

/-- The loop never overshoots: starting strictly inside the boundaries, a
final position at or beyond a boundary is that boundary exactly. -/
theorem absorbGo_exact (left right : Int) (p : ℚ) (u : ℕ → ℚ) :
    ∀ (fuel i : ℕ) (pos : Int) (path : List Int), left < pos → pos < right →
      ((absorbGo left right p u i fuel pos path).2.2 ≤ left ∨
        right ≤ (absorbGo left right p u i fuel pos path).2.2) →
      (absorbGo left right p u i fuel pos path).2.2 = left ∨
        (absorbGo left right p u i fuel pos path).2.2 = right := by
  intro fuel
  induction fuel with
  | zero =>
    intro i pos path h1 h2 habs
    simp [absorbGo] at habs ⊢
    omega
  | succ f ih =>
    intro i pos path h1 h2 habs
    rw [absorbGo_succ] at habs ⊢
    rcases step1d_eq p (u i) with hs | hs <;> rw [hs] at habs ⊢
    · by_cases hb : pos + 1 ≤ left ∨ right ≤ pos + 1
      · rw [if_pos hb] at habs ⊢
        simp at habs ⊢
        omega
      · rw [if_neg hb] at habs ⊢
        exact ih (i + 1) (pos + 1) (path ++ [pos + 1]) (by omega) (by omega) habs
    · by_cases hb : pos + -1 ≤ left ∨ right ≤ pos + -1
      · rw [if_pos hb] at habs ⊢
        simp at habs ⊢
        omega
      · rw [if_neg hb] at habs ⊢
        exact ih (i + 1) (pos + -1) (path ++ [pos + -1]) (by omega) (by omega) habs

/-- Claim C1: with `left < start < right`, whenever the walk stops with its
final position at or beyond a boundary (the absorption condition), the
returned `hit_location` is exactly `left` or exactly `right`, never a
position strictly beyond a boundary. -/
theorem rwAbsorbing_hits_boundary_exactly (left right start : Int) (p : ℚ) (M : Int)
    (u : ℕ → ℚ) (h1 : left < start) (h2 : start < right)
    (habs : (random_walk_absorbing left right start p M u).hit_location ≤ left ∨
      right ≤ (random_walk_absorbing left right start p M u).hit_location) :
    (random_walk_absorbing left right start p M u).hit_location = left ∨
      (random_walk_absorbing left right start p M u).hit_location = right := by
  have hloc : (random_walk_absorbing left right start p M u).hit_location =
      (absorbGo left right p u 0 M.toNat start [start]).2.2 := by
    unfold random_walk_absorbing
    rcases h : absorbGo left right p u 0 M.toNat start [start] with ⟨path, res, pos⟩
    cases res <;> rfl
  rw [hloc] at habs ⊢
  exact absorbGo_exact left right p u M.toNat 0 start [start] h1 h2 habs

/-- Witness for C1 at `left = -1`, `right = 1`, `start = 0`, `p = 1/2`,
`max_steps = 5`, all-zero draws (the walk absorbs at the right boundary). -/
theorem rwAbsorbing_hits_boundary_exactly_witness :
    ((-1 : Int) < 0 ∧ (0 : Int) < 1) ∧
    ((random_walk_absorbing (-1) 1 0 (1 / 2) 5 zeroDraws).hit_location = -1 ∨
      (random_walk_absorbing (-1) 1 0 (1 / 2) 5 zeroDraws).hit_location = 1) :=
  ⟨⟨by decide, by decide⟩,
    rwAbsorbing_hits_boundary_exactly (-1) 1 0 (1 / 2) 5 zeroDraws (by decide) (by decide)
      (by with_unfolding_all decide)⟩

/-- Claim C2 (amended with `0 ≤ max_steps`): the returned path begins with
`start`, ends with the returned `hit_location`, and its length is exactly
`hit_time + 1`. -/
theorem rwAbsorbing_path_shape (left right start : Int) (p : ℚ) (M : Int) (u : ℕ → ℚ)
    (hM : 0 ≤ M) :
    (random_walk_absorbing left right start p M u).path.head? = some start ∧
    (random_walk_absorbing left right start p M u).path.getLast? =
      some (random_walk_absorbing left right start p M u).hit_location ∧
    ((random_walk_absorbing left right start p M u).path.length : Int) =
      (random_walk_absorbing left right start p M u).hit_time + 1 := by
  unfold random_walk_absorbing
  rcases h : absorbGo left right p u 0 M.toNat start [start] with ⟨path, res, pos⟩
  obtain ⟨ext, hext⟩ := absorbGo_extends left right p u M.toNat 0 start [start]
  have hlast := absorbGo_getLast left right p u M.toNat 0 start [start] rfl
  rw [h] at hext hlast
  simp at hext hlast
  cases res with
  | none =>
    have hlen := absorbGo_none_length left right p u M.toNat 0 start [start] (by rw [h])
    rw [h] at hlen
    simp at hlen
    refine ⟨?_, ?_, ?_⟩
    · show path.head? = some start
      rw [hext]
      rfl
    · show path.getLast? = some pos
      exact hlast
    · show (path.length : Int) = M + 1
      omega
  | some t =>
    have hspec := absorbGo_some_spec left right p u M.toNat 0 start [start] t (by rw [h])
    rw [h] at hspec
    simp at hspec
    obtain ⟨ht1, ht2, ht3⟩ := hspec
    refine ⟨?_, ?_, ?_⟩
    · show path.head? = some start
      rw [hext]
      rfl
    · show path.getLast? = some pos
      exact hlast
    · show (path.length : Int) = (t : Int) + 1
      omega

/-- Witness for C2's amended statement at `left = -1`, `right = 1`,
`start = 0`, `p = 1/2`, `max_steps = 3`, all-zero draws. -/
theorem rwAbsorbing_path_shape_witness :
    (0 : Int) ≤ 3 ∧
    ((random_walk_absorbing (-1) 1 0 (1 / 2) 3 zeroDraws).path.head? = some 0 ∧
     (random_walk_absorbing (-1) 1 0 (1 / 2) 3 zeroDraws).path.getLast? =
       some (random_walk_absorbing (-1) 1 0 (1 / 2) 3 zeroDraws).hit_location ∧
     ((random_walk_absorbing (-1) 1 0 (1 / 2) 3 zeroDraws).path.length : Int) =
       (random_walk_absorbing (-1) 1 0 (1 / 2) 3 zeroDraws).hit_time + 1) :=
  ⟨by decide, rwAbsorbing_path_shape (-1) 1 0 (1 / 2) 3 zeroDraws (by decide)⟩

/-- Counterexample to C2 as stated (quantified over every call): at
`max_steps = -1` the loop body never runs, the path is `[start]` of length 1,
but `hit_time = max_steps = -1`, so the length is not `hit_time + 1 = 0`. -/
theorem rwAbsorbing_path_shape_counterexample :
    ¬(((random_walk_absorbing 0 10 5 (1 / 2) (-1) zeroDraws).path.length : Int) =
      (random_walk_absorbing 0 10 5 (1 / 2) (-1) zeroDraws).hit_time + 1) := by
  with_unfolding_all decide

/-- Claim C3: for `max_steps ≥ 1` the walk always takes at least one step
before checking absorption, so `hit_time ≥ 1` and the path has at least two
entries — for every `left`, `right`, `start`, in particular also when
`start` already satisfies the absorption condition. -/
theorem rwAbsorbing_step_then_check (left right start : Int) (p : ℚ) (M : Int)
    (u : ℕ → ℚ) (hM : 1 ≤ M) :
    1 ≤ (random_walk_absorbing left right start p M u).hit_time ∧
    2 ≤ (random_walk_absorbing left right start p M u).path.length := by
  unfold random_walk_absorbing
  rcases h : absorbGo left right p u 0 M.toNat start [start] with ⟨path, res, pos⟩
  cases res with
  | none =>
    have hlen := absorbGo_none_length left right p u M.toNat 0 start [start] (by rw [h])
    rw [h] at hlen
    simp at hlen
    refine ⟨?_, ?_⟩
    · show 1 ≤ M
      exact hM
    · show 2 ≤ path.length
      omega
  | some t =>
    have hspec := absorbGo_some_spec left right p u M.toNat 0 start [start] t (by rw [h])
    rw [h] at hspec
    simp at hspec
    obtain ⟨ht1, ht2, ht3⟩ := hspec
    refine ⟨?_, ?_⟩
    · show 1 ≤ (t : Int)
      omega
    · show 2 ≤ path.length
      omega

/-- Witness for C3 at a start already beyond the right boundary
(`left = -1`, `right = 1`, `start = 5`): the walk still steps once. -/
theorem rwAbsorbing_step_then_check_witness :
    (1 : Int) ≤ 3 ∧
    (1 ≤ (random_walk_absorbing (-1) 1 5 (1 / 2) 3 zeroDraws).hit_time ∧
     2 ≤ (random_walk_absorbing (-1) 1 5 (1 / 2) 3 zeroDraws).path.length) :=
  ⟨by decide, rwAbsorbing_step_then_check (-1) 1 5 (1 / 2) 3 zeroDraws (by decide)⟩

/-- Claim C4: the loop of `random_walk_absorbing` is bounded by the budget on
every input — the number of iterations taken (path length minus the initial
entry) never exceeds `max_steps` (`max_steps.toNat` iterations of
`range(1, max_steps + 1)`), and the returned `hit_time` is always at most
`max_steps`; the embedding itself is total, so the function terminates on
every input. -/
theorem rwAbsorbing_budget_bound (left right start : Int) (p : ℚ) (M : Int)
    (u : ℕ → ℚ) :
    (random_walk_absorbing left right start p M u).path.length ≤ M.toNat + 1 ∧
    (random_walk_absorbing left right start p M u).hit_time ≤ M := by
  unfold random_walk_absorbing
  rcases h : absorbGo left right p u 0 M.toNat start [start] with ⟨path, res, pos⟩
  cases res with
  | none =>
    have hlen := absorbGo_none_length left right p u M.toNat 0 start [start] (by rw [h])
    rw [h] at hlen
    simp at hlen
    refine ⟨?_, ?_⟩
    · show path.length ≤ M.toNat + 1
      omega
    · show M ≤ M
      exact le_rfl
  | some t =>
    have hspec := absorbGo_some_spec left right p u M.toNat 0 start [start] t (by rw [h])
    rw [h] at hspec
    simp at hspec
    obtain ⟨ht1, ht2, ht3⟩ := hspec
    refine ⟨?_, ?_⟩
    · show path.length ≤ M.toNat + 1
      omega
    · show (t : Int) ≤ M
      omega

/-- Claim C10: for `max_steps ≤ 0` the loop body never runs and no draw is
consumed — the result is `(path = [start], hit_time = max_steps,
hit_location = start)` for every draw stream, even when `start` lies at or
beyond a boundary; for `max_steps < 0` the returned `hit_time` is negative
and the path length 1 differs from `hit_time + 1`. -/
theorem rwAbsorbing_zero_budget (left right start : Int) (p : ℚ) (M : Int)
    (u : ℕ → ℚ) (hM : M ≤ 0) :
    random_walk_absorbing left right start p M u = ⟨[start], M, start⟩ ∧
    (M < 0 → (random_walk_absorbing left right start p M u).hit_time < 0 ∧
      ((random_walk_absorbing left right start p M u).path.length : Int) ≠
        (random_walk_absorbing left right start p M u).hit_time + 1) := by
  have h0 : M.toNat = 0 := by omega
  have he : random_walk_absorbing left right start p M u = ⟨[start], M, start⟩ := by
    unfold random_walk_absorbing
    rw [h0]
    rfl
  refine ⟨he, fun hneg => ?_⟩
  rw [he]
  exact ⟨hneg, by simp; omega⟩

/-- Witness for C10 at `max_steps = -1` with `start = 5` beyond the right
boundary. -/
theorem rwAbsorbing_zero_budget_witness :
    (-1 : Int) ≤ 0 ∧
    (random_walk_absorbing (-1) 1 5 (1 / 2) (-1) zeroDraws = ⟨[5], -1, 5⟩ ∧
     ((-1 : Int) < 0 →
       (random_walk_absorbing (-1) 1 5 (1 / 2) (-1) zeroDraws).hit_time < 0 ∧
       ((random_walk_absorbing (-1) 1 5 (1 / 2) (-1) zeroDraws).path.length : Int) ≠
         (random_walk_absorbing (-1) 1 5 (1 / 2) (-1) zeroDraws).hit_time + 1)) :=
  ⟨by decide, rwAbsorbing_zero_budget (-1) 1 5 (1 / 2) (-1) zeroDraws (by decide)⟩

/-- Claim C6: with degenerate biases the absorbing walk is deterministic for
every draw stream taking values in `[0, 1)`: bias `p = 1` forces every step
to `+1` (each draw is `< 1`), bias `p = 0` forces every step to `-1` (no
draw is `< 0`), so with `left = -1`, `right = 1`, `start = 0`,
`max_steps = 100` the walk absorbs at tick 1 with the stated path, hit time
and hit location. -/
theorem rwAbsorbing_degenerate_bias (u : ℕ → ℚ) (h : ∀ i, 0 ≤ u i ∧ u i < 1) :
    random_walk_absorbing (-1) 1 0 1 100 u = ⟨[0, 1], 1, 1⟩ ∧
    random_walk_absorbing (-1) 1 0 0 100 u = ⟨[0, -1], 1, -1⟩ := by
  have hs1 : step1d 1 (u 0) = 1 := if_pos (h 0).2
  have hs0 : step1d 0 (u 0) = -1 := if_neg (not_lt.mpr (h 0).1)
  constructor
  · unfold random_walk_absorbing
    rw [show Int.toNat 100 = 99 + 1 from rfl, absorbGo_succ, hs1]
    rfl
  · unfold random_walk_absorbing
    rw [show Int.toNat 100 = 99 + 1 from rfl, absorbGo_succ, hs0]
    rfl

/-- Witness for C6 with the all-zero draw stream. -/
theorem rwAbsorbing_degenerate_bias_witness :
    random_walk_absorbing (-1) 1 0 1 100 zeroDraws = ⟨[0, 1], 1, 1⟩ ∧
    random_walk_absorbing (-1) 1 0 0 100 zeroDraws = ⟨[0, -1], 1, -1⟩ :=
  rwAbsorbing_degenerate_bias zeroDraws (fun _ => ⟨le_rfl, by norm_num [zeroDraws]⟩)

/-- For distinct values `a ≠ b`, the elements equal to `a` and the elements
equal to `b` in a list together never outnumber the list. -/
theorem filter_eq_two_length_le (l : List Int) (a b : Int) (hab : a ≠ b) :
    (l.filter (fun x => decide (x = a))).length +
      (l.filter (fun x => decide (x = b))).length ≤ l.length := by
  induction l with
  | nil => simp
  | cons x xs ih =>
    simp only [List.filter_cons]
    by_cases hxa : x = a
    · subst hxa
      rw [if_pos (by simp), if_neg (by simp [hab])]
      simp
      omega
    · by_cases hxb : x = b
      · subst hxb
        rw [if_neg (by simp [hxa]), if_pos (by simp)]
        simp
        omega
      · rw [if_neg (by simp [hxa]), if_neg (by simp [hxb])]
        simp
        omega

/-- The two empirical boundary-hit fractions of a nonempty list sum to at
most one when the two boundaries are distinct. -/
theorem count_probs_le_one (l : List Int) (a b : Int) (hab : a ≠ b) (hl : l ≠ []) :
    ((l.filter (fun x => decide (x = a))).length : ℚ) / (l.length : ℚ) +
      ((l.filter (fun x => decide (x = b))).length : ℚ) / (l.length : ℚ) ≤ 1 := by
  have h0 : 0 < l.length := List.length_pos.mpr hl
  have hc := filter_eq_two_length_le l a b hab
  rw [div_add_div_same, div_le_one (by exact_mod_cast h0)]
  exact_mod_cast hc

/-- Claim C5 (amended with `left ≠ right`): for `n_trials ≥ 1`,
`hitting_time` returns the list of the `n_trials` hit times in trial order
(each trial run with the defaults `p = 1/2` and `max_steps = 10000`),
`prob_left` and `prob_right` are the fractions of trials whose
`hit_location` equals `left` (respectively `right`) exactly, and — the two
boundaries being distinct — `prob_left + prob_right ≤ 1`. -/
theorem hitting_time_spec (left right n_trials start : Int) (u : ℕ → ℕ → ℚ)
    (hn : 1 ≤ n_trials) (hlr : left ≠ right) :
    (hitting_time left right n_trials start u).1.length = n_trials.toNat ∧
    (∀ i, i < n_trials.toNat →
      (hitting_time left right n_trials start u).1.getD i 0 =
        (random_walk_absorbing left right start (1 / 2) 10000 (u i)).hit_time) ∧
    (hitting_time left right n_trials start u).2.1 =
      ((((List.range n_trials.toNat).map
          (fun i => (random_walk_absorbing left right start (1 / 2) 10000 (u i)).hit_location)).filter
            (fun x => decide (x = left))).length : ℚ) / (n_trials.toNat : ℚ) ∧
    (hitting_time left right n_trials start u).2.2 =
      ((((List.range n_trials.toNat).map
          (fun i => (random_walk_absorbing left right start (1 / 2) 10000 (u i)).hit_location)).filter
            (fun x => decide (x = right))).length : ℚ) / (n_trials.toNat : ℚ) ∧
    (hitting_time left right n_trials start u).2.1 +
      (hitting_time left right n_trials start u).2.2 ≤ 1 := by
  refine ⟨?_, ?_, ?_, ?_, ?_⟩
  · simp [hitting_time]
  · intro i hi
    simp only [hitting_time]
    rw [List.getD_eq_getElem _ _ (by simpa using hi)]
    simp
  · simp [hitting_time, List.map_map, Function.comp_def]
  · simp [hitting_time, List.map_map, Function.comp_def]
  · simp only [hitting_time]
    apply count_probs_le_one _ left right hlr
    apply List.length_pos.mp
    simp
    omega

/-- Witness for C5's amended statement: one trial with boundaries `-1`, `1`,
all-zero draws. -/
theorem hitting_time_spec_witness :
    ((1 : Int) ≤ 1 ∧ (-1 : Int) ≠ 1) ∧
    (hitting_time (-1) 1 1 0 zeroDraws2).2.1 +
      (hitting_time (-1) 1 1 0 zeroDraws2).2.2 ≤ 1 :=
  ⟨⟨le_rfl, by decide⟩,
    (hitting_time_spec (-1) 1 1 0 zeroDraws2 le_rfl (by decide)).2.2.2.2⟩

/-- Counterexample to C5 as stated (no constraint relating the boundaries):
with `left = right = 1` and `start = 0` every trial's `hit_location` equals
both boundaries, so `prob_left + prob_right = 2 > 1`. -/
theorem hitting_time_counterexample :
    ¬((hitting_time 1 1 1 0 zeroDraws2).2.1 +
        (hitting_time 1 1 1 0 zeroDraws2).2.2 ≤ 1) := by
  with_unfolding_all decide

/-- Counterexample to C7 as stated: for `n_steps = -1` the call does not
return an empty sequence — `np.random.rand(-1)` raises `ValueError`. -/
theorem random_walk_1d_neg_counterexample :
    ¬(random_walk_1d (-1) (1 / 2) zeroDraws = Except.ok []) := by
  have he : random_walk_1d (-1) (1 / 2) zeroDraws = Except.error negDimMsg := by
    with_unfolding_all rfl
  rw [he]
  intro hcontra
  exact Except.noConfusion hcontra

/-- Claim C7 (amended): for `n_steps = 0` the call returns an empty sequence,
but for `n_steps < 0` it fails — `np.random.rand(n_steps)` raises
`ValueError: negative dimensions are not allowed`. -/
theorem random_walk_1d_nonpos (n : Int) (p : ℚ) (u : ℕ → ℚ) (hn : n ≤ 0) :
    (n = 0 → random_walk_1d n p u = Except.ok []) ∧
    (n < 0 → random_walk_1d n p u = Except.error negDimMsg) := by
  constructor
  · intro h0
    subst h0
    rfl
  · intro hneg
    unfold random_walk_1d
    rw [if_pos hneg]

/-- Witness for C7's amended statement at `n_steps = -1`. -/
theorem random_walk_1d_nonpos_witness :
    (-1 : Int) ≤ 0 ∧
    (((-1 : Int) = 0 → random_walk_1d (-1) (1 / 2) zeroDraws = Except.ok []) ∧
     ((-1 : Int) < 0 → random_walk_1d (-1) (1 / 2) zeroDraws = Except.error negDimMsg)) :=
  ⟨by decide, random_walk_1d_nonpos (-1) (1 / 2) zeroDraws (by decide)⟩

/-- Successive positions of a unit-step walk differ by exactly `+1` or `-1`. -/
def diffStep (a b : Int) : Prop := b - a = 1 ∨ b - a = -1

theorem cumsumFrom_length (acc : Int) (xs : List Int) :
    (cumsumFrom acc xs).length = xs.length := by
  induction xs generalizing acc with
  | nil => rfl
  | cons x xs ih => simp [cumsumFrom, ih]

theorem cumsumFrom_head (acc x : Int) (xs : List Int) :
    (cumsumFrom acc (x :: xs)).head? = some (acc + x) := rfl

/-- A cumulative sum of unit steps has unit successive differences. -/
theorem cumsumFrom_chain (xs : List Int) :
    ∀ acc, (∀ x ∈ xs, x = 1 ∨ x = -1) → List.Chain' diffStep (cumsumFrom acc xs) := by
  induction xs with
  | nil => intro acc _; simp [cumsumFrom]
  | cons x xs ih =>
    intro acc hx
    rw [cumsumFrom, List.chain'_cons']
    refine ⟨?_, ih (acc + x) (fun y hy => hx y (List.mem_cons_of_mem _ hy))⟩
    intro y hy
    cases xs with
    | nil => simp [cumsumFrom] at hy
    | cons z zs =>
      rw [cumsumFrom_head] at hy
      have hz := hx z (by simp)
      have hyz : acc + x + z = y := by simpa using hy
      subst hyz
      rcases hz with hz | hz
      · exact Or.inl (by omega)
      · exact Or.inr (by omega)

/-- Every element of the drawn step list is `+1` or `-1`. -/
theorem stepsOf_mem (n : ℕ) (p : ℚ) (u : ℕ → ℚ) :
    ∀ x ∈ stepsOf n p u, x = 1 ∨ x = -1 := by
  intro x hx
  simp [stepsOf] at hx
  obtain ⟨i, _, hi⟩ := hx
  rw [← hi]
  exact step1d_eq p (u i)

/-- Claim C8: for `n_steps ≥ 1`, `random_walk_1d` succeeds with a sequence of
exactly `n_steps` cumulative positions whose first element is `+1` or `-1`
and whose successive differences are all exactly `+1` or `-1`. -/
theorem random_walk_1d_invariant (n : Int) (p : ℚ) (u : ℕ → ℚ) (hn : 1 ≤ n) :
    ∃ l, random_walk_1d n p u = Except.ok l ∧ l.length = n.toNat ∧
      (l.headD 0 = 1 ∨ l.headD 0 = -1) ∧ List.Chain' diffStep l := by
  refine ⟨cumsum (stepsOf n.toNat p u), ?_, ?_, ?_, ?_⟩
  · unfold random_walk_1d
    rw [if_neg (by omega)]
  · simp [cumsum, cumsumFrom_length, stepsOf]
  · cases hs : stepsOf n.toNat p u with
    | nil =>
      have hlen : (stepsOf n.toNat p u).length = n.toNat := by simp [stepsOf]
      rw [hs] at hlen
      simp at hlen
      omega
    | cons y ys =>
      have hy : y = 1 ∨ y = -1 := stepsOf_mem n.toNat p u y (hs ▸ List.mem_cons_self y ys)
      rw [cumsum]
      simpa [cumsumFrom] using hy
  · exact cumsumFrom_chain (stepsOf n.toNat p u) 0 (stepsOf_mem n.toNat p u)

/-- Witness for C8 at `n_steps = 2`, `p = 1/2`, all-zero draws. -/
theorem random_walk_1d_invariant_witness :
    (1 : Int) ≤ 2 ∧
    ∃ l, random_walk_1d 2 (1 / 2) zeroDraws = Except.ok l ∧ l.length = (2 : Int).toNat ∧
      (l.headD 0 = 1 ∨ l.headD 0 = -1) ∧ List.Chain' diffStep l :=
  ⟨by decide, random_walk_1d_invariant 2 (1 / 2) zeroDraws (by decide)⟩

/-- The squared displacement of one integer position, as a rational. -/
def sqQ (x : Int) : ℚ := ((x : ℚ)) ^ 2

/-- Reindexing a per-position map over `List.range`. -/
theorem range_map_getD (W : List Int) (f : Int → ℚ) :
    (List.range W.length).map (fun t => f (W.getD t 0)) = W.map f := by
  apply List.ext_getElem
  · simp
  · intro i h1 h2
    simp only [List.getElem_map, List.getElem_range]
    rw [List.getD_eq_getElem _ _ (by simpa using h2)]

/-- Claim C9: `mean_squared_displacement` applied to `k ≥ 1` identical copies
of a walk `W` is `W` squared elementwise; in general element `t` is the
arithmetic mean over trials of the squared position at time `t`; and for a
single trial it reduces to squaring the single walk. -/
theorem msd_spec :
    (∀ (k : ℕ) (W : List Int), 1 ≤ k →
      mean_squared_displacement (List.replicate k W) = W.map sqQ) ∧
    (∀ (walks : List (List Int)) (t : ℕ), t < (walks.headD []).length →
      (mean_squared_displacement walks).getD t 0 =
        ((walks.map (fun w => sqQ (w.getD t 0))).sum) / (walks.length : ℚ)) ∧
    (∀ W : List Int, mean_squared_displacement [W] = W.map sqQ) := by
  have ha : ∀ (k : ℕ) (W : List Int), 1 ≤ k →
      mean_squared_displacement (List.replicate k W) = W.map sqQ := by
    intro k W hk
    have hhead : (List.replicate k W).headD [] = W := by
      cases k with
      | zero => omega
      | succ m => rfl
    unfold mean_squared_displacement
    rw [hhead, ← range_map_getD W sqQ]
    apply List.map_congr_left
    intro t _
    unfold colMeanSq sqQ
    rw [List.map_replicate, List.sum_replicate, List.length_replicate, nsmul_eq_mul]
    exact mul_div_cancel_left₀ _ (Nat.cast_ne_zero.mpr (by omega))
  refine ⟨ha, ?_, ?_⟩
  · intro walks t ht
    unfold mean_squared_displacement
    rw [List.getD_eq_getElem _ _ (by simpa using ht)]
    simp only [List.getElem_map, List.getElem_range]
    unfold colMeanSq sqQ
    rfl
  · intro W
    rw [show [W] = List.replicate 1 W from rfl]
    exact ha 1 W le_rfl

/-- Witness for C9: two identical copies of the walk `[1, 2, 3]`. -/
theorem msd_spec_witness :
    mean_squared_displacement (List.replicate 2 [1, 2, 3]) = [(1 : ℚ), 4, 9] := by
  rw [msd_spec.1 2 [1, 2, 3] (by decide)]
  with_unfolding_all decide

